import Mathlib

/-!
Verification of `libs/libc/stream/lib_mtdoutstream.c` (NuttX MTD output
stream).  The C code is shallowly embedded: the MTD device is modelled by
deterministic result oracles (the `int` value each driver primitive returns
for given arguments), and every call records the trace of device operations
it issues.  Machine integers are modelled by `Nat`/`Int`; `size_t`
arithmetic in the C never overflows in the scenarios considered, and the
geometry is validated positive at open time, so plain `Nat` arithmetic is
faithful.
-/

/-- MTD geometry, as returned by the `MTDIOC_GEOMETRY` ioctl
(`struct mtd_geometry_s`): block size, erase-unit size, erase-unit count.
`lib_mtdoutstream_open` rejects devices where any of these is not positive. -/
structure MtdGeo where
  blocksize : Nat
  erasesize : Nat
  neraseblocks : Nat
deriving Repr, DecidableEq

/-- A device operation issued by the stream: `MTD_ERASE`, `MTD_BWRITE`
(block program) or `MTD_WRITE` (direct byte program).  Data arguments are
recorded as the byte list handed to the driver. -/
inductive DevOp where
  | erase (startblock count : Nat)
  | bwrite (startblock nblocks : Nat) (data : List Nat)
  | write (offset len : Nat) (data : List Nat)
deriving Repr, DecidableEq

/-- The MTD device: `hasWrite` is true when `CONFIG_MTD_BYTE_WRITE` is
enabled and `inode->u.i_mtd->write != NULL` (direct byte-program mode).
The three oracles give the `int` return value of each driver primitive for
given arguments; a negative value is an error (`ret < 0` in the C). -/
structure MtdDev where
  hasWrite : Bool
  eraseRes : Nat → Nat → Int
  bwriteRes : Nat → Nat → List Nat → Int
  writeRes : Nat → Nat → List Nat → Int

/-- The errno value `ENOSPC` (28); `mtdoutstream_puts` returns `-ENOSPC`
when a write would exceed the device capacity. -/
def ENOSPC : Int := 28

/-- `memcpy(dst + off, src, src.length)` on byte lists.  When
`off + src.length ≤ dst.length` the result has the same length as `dst`;
an out-of-bounds copy shows up as a longer result. -/
def copyInto (dst : List Nat) (off : Nat) (src : List Nat) : List Nat :=
  dst.take off ++ src ++ dst.drop (off + src.length)

/-- Result of one `mtdoutstream_puts` call: the returned `int`, the updated
`nput` (stream position), the updated cache content, and the trace of
device operations issued (in order, including a final failing one). -/
structure PutsOut where
  ret : Int
  nput : Nat
  cache : List Nat
  ops : List DevOp
deriving Repr, DecidableEq

/-- State of the buffered-mode `while (remain > 0)` loop of
`mtdoutstream_puts` when it stops: `err = some e` when the C returned the
device error `e` from inside the loop, `none` when the loop ran to
completion. -/
structure LoopOut where
  err : Option Int
  nput : Nat
  cache : List Nat
  ops : List DevOp
deriving Repr, DecidableEq

/-- The buffered-mode loop of `mtdoutstream_puts`
(`while (remain > 0) { ... }`), fuel-indexed: one unit of fuel per
iteration, `none` on fuel exhaustion.  `es = geo.erasesize`,
`nbpe = erasesize / blocksize`; `ptr` is the unread suffix of the caller
buffer.  Each iteration is one of the three mutually exclusive cases of the
C code: continuing a partial unit (`offset > 0`), starting a final partial
unit (`remain < erasesize`), or the bulk whole-unit path. -/
def putsLoopB (dev : MtdDev) (es nbpe : Nat) :
    Nat → Nat → List Nat → List Nat → Nat → List DevOp → Option LoopOut
  | 0, _, _, _, _, _ => none
  | fuel + 1, nput, cache, ptr, remain, ops =>
    if remain = 0 then some ⟨none, nput, cache, ops⟩
    else
      let sblock := nput / es
      let offset := nput % es
      if 0 < offset then
        let copyin := if es < offset + remain then es - offset else remain
        let cache1 := copyInto cache offset (ptr.take copyin)
        let ptr1 := ptr.drop copyin
        let nput1 := nput + copyin
        let remain1 := remain - copyin
        if offset + copyin = es then
          let r1 := dev.eraseRes sblock 1
          let ops1 := ops ++ [DevOp.erase sblock 1]
          if r1 < 0 then some ⟨some r1, nput1, cache1, ops1⟩
          else
            let r2 := dev.bwriteRes (sblock * nbpe) nbpe cache1
            let ops2 := ops1 ++ [DevOp.bwrite (sblock * nbpe) nbpe cache1]
            if r2 < 0 then some ⟨some r2, nput1, cache1, ops2⟩
            else putsLoopB dev es nbpe fuel nput1 cache1 ptr1 remain1 ops2
        else putsLoopB dev es nbpe fuel nput1 cache1 ptr1 remain1 ops
      else if remain < es then
        some ⟨none, nput + remain,
              copyInto (List.replicate es 0) 0 (ptr.take remain), ops⟩
      else
        let nblock := remain / es
        let copyin := nblock * es
        let r1 := dev.eraseRes sblock nblock
        let ops1 := ops ++ [DevOp.erase sblock nblock]
        if r1 < 0 then some ⟨some r1, nput, cache, ops1⟩
        else
          let r2 := dev.bwriteRes (sblock * nbpe) (nblock * nbpe) (ptr.take copyin)
          let ops2 := ops1 ++ [DevOp.bwrite (sblock * nbpe) (nblock * nbpe) (ptr.take copyin)]
          if r2 < 0 then some ⟨some r2, nput, cache, ops2⟩
          else putsLoopB dev es nbpe fuel (nput + copyin) cache (ptr.drop copyin)
                 (remain - copyin) ops2

/-- `mtdoutstream_puts(self, buf, len)`.  `nput0`/`cache0` are the stream
state on entry; `buf` is the buffer of the caller.  Capacity check first, then
the direct byte-program path (`hasWrite`) or the buffered loop.  The loop
fuel `len + 1` is sufficient whenever `0 < erasesize` (proved below); the
fuel-exhaustion branch is unreachable under that hypothesis. -/
def mtdoutstream_puts (dev : MtdDev) (g : MtdGeo) (nput0 : Nat)
    (cache0 : List Nat) (buf : List Nat) (len : Nat) : PutsOut :=
  let es := g.erasesize
  let nbpe := es / g.blocksize
  if es * g.neraseblocks < nput0 + len then
    ⟨-ENOSPC, nput0, cache0, []⟩
  else if dev.hasWrite then
    let sblock := (nput0 + es - 1) / es
    let eblock := (nput0 + len + es - 1) / es
    if sblock = eblock then
      let r := dev.writeRes nput0 len (buf.take len)
      if r < 0 then ⟨r, nput0, cache0, [DevOp.write nput0 len (buf.take len)]⟩
      else ⟨(len : Int), nput0 + len, cache0, [DevOp.write nput0 len (buf.take len)]⟩
    else
      let r1 := dev.eraseRes sblock (eblock - sblock)
      if r1 < 0 then ⟨r1, nput0, cache0, [DevOp.erase sblock (eblock - sblock)]⟩
      else
        let r := dev.writeRes nput0 len (buf.take len)
        let ops := [DevOp.erase sblock (eblock - sblock),
                    DevOp.write nput0 len (buf.take len)]
        if r < 0 then ⟨r, nput0, cache0, ops⟩
        else ⟨(len : Int), nput0 + len, cache0, ops⟩
  else
    match putsLoopB dev es nbpe (len + 1) nput0 cache0 buf len [] with
    | some out =>
      ⟨match out.err with
        | some e => e
        | none => (len : Int), out.nput, out.cache, out.ops⟩
    | none => ⟨0, nput0, cache0, []⟩

/-- `mtdoutstream_flush(self)`: commits the pending partial erase unit, if
any, from the cache.  Returns the C return value and the trace of device
operations issued.  The C function reads `nput` and `cache` and modifies
neither. -/
def mtdoutstream_flush (dev : MtdDev) (g : MtdGeo) (nput : Nat)
    (cache : List Nat) : Int × List DevOp :=
  let es := g.erasesize
  let nbpe := es / g.blocksize
  if 0 < nput % es then
    if dev.hasWrite then (0, [])
    else
      let sblock := nput / es
      let r1 := dev.eraseRes sblock 1
      if r1 < 0 then (r1, [DevOp.erase sblock 1])
      else
        (dev.bwriteRes (sblock * nbpe) nbpe cache,
         [DevOp.erase sblock 1, DevOp.bwrite (sblock * nbpe) nbpe cache])
  else (0, [])

/-- `mtdoutstream_putc(self, ch)`: `char tmp = ch; puts(self, &tmp, 1)`.
The `int`-to-`char` conversion is modelled by reduction mod 256. -/
def mtdoutstream_putc (dev : MtdDev) (g : MtdGeo) (nput0 : Nat)
    (cache0 : List Nat) (ch : Nat) : PutsOut :=
  mtdoutstream_puts dev g nput0 cache0 [ch % 256] 1

/-- The fields of `struct lib_mtdoutstream_s` that `lib_mtdoutstream_close`
touches: the inode handle and the cache pointer, each possibly `NULL`. -/
structure CloseFields where
  inode : Option Unit
  cache : Option (List Nat)
deriving Repr, DecidableEq

/-- `lib_mtdoutstream_close(stream)`: releases the inode via
`close_mtddriver` and frees the cache, nulling both fields; a `NULL`
stream or `NULL` fields are skipped.  It issues no device operation
(second component is the trace of `DevOp`s, always empty). -/
def lib_mtdoutstream_close : Option CloseFields → Option CloseFields × List DevOp
  | none => (none, [])
  | some _ => (some ⟨none, none⟩, [])

/-- Byte-level device content semantics of one operation: erase fills the
erase-unit range with the erased byte value 255; `bwrite`/`write` copy
their data into the addressed range.  Addresses are absolute byte offsets
on the device. -/
def applyOp (g : MtdGeo) (c : Nat → Nat) : DevOp → Nat → Nat
  | DevOp.erase sb n => fun a =>
      if sb * g.erasesize ≤ a ∧ a < (sb + n) * g.erasesize then 255 else c a
  | DevOp.bwrite b n data => fun a =>
      if b * g.blocksize ≤ a ∧ a < (b + n) * g.blocksize then
        data.getD (a - b * g.blocksize) 0
      else c a
  | DevOp.write off len data => fun a =>
      if off ≤ a ∧ a < off + len then data.getD (a - off) 0 else c a

/-- Device content after a trace of operations, applied in order. -/
def applyOps (g : MtdGeo) (c : Nat → Nat) (ops : List DevOp) : Nat → Nat :=
  ops.foldl (applyOp g) c

/-- One stream call, for stating reachability invariants: `puts` with a
buffer and a length, `putc` with a character, or `flush`. -/
inductive SCall where
  | puts (buf : List Nat) (len : Nat)
  | putc (ch : Nat)
  | flush
deriving Repr

/-- The stream state a call can modify: `nput` and the cache content
(`flush` modifies neither; `close` is terminal and excluded). -/
structure StreamSt where
  nput : Nat
  cache : List Nat
deriving Repr, DecidableEq

/-- Effect of one call on the stream state. -/
def stepCall (dev : MtdDev) (g : MtdGeo) (s : StreamSt) : SCall → StreamSt
  | SCall.puts buf len =>
      let o := mtdoutstream_puts dev g s.nput s.cache buf len
      ⟨o.nput, o.cache⟩
  | SCall.putc ch =>
      let o := mtdoutstream_putc dev g s.nput s.cache ch
      ⟨o.nput, o.cache⟩
  | SCall.flush => s

/-- Stream state after a sequence of calls. -/
def runCalls (dev : MtdDev) (g : MtdGeo) (s : StreamSt) : List SCall → StreamSt
  | [] => s
  | c :: cs => runCalls dev g (stepCall dev g s c) cs

/-- All three driver primitives succeed (return nonnegative) on every
argument: the error-free device. -/
def MtdDev.NoErr (dev : MtdDev) : Prop :=
  (∀ a b, 0 ≤ dev.eraseRes a b) ∧ (∀ a b d, 0 ≤ dev.bwriteRes a b d) ∧
    (∀ a b d, 0 ≤ dev.writeRes a b d)

/-- Claim C1: if `position + len` exceeds `eraseUnitSize * eraseUnitCount`,
`putBytes` returns `-ENOSPC`, issues no device operation, and leaves both
the position and the cache unchanged, in either device mode. -/
theorem puts_capacity_noSpace (dev : MtdDev) (g : MtdGeo) (nput0 : Nat)
    (cache0 buf : List Nat) (len : Nat)
    (h : g.erasesize * g.neraseblocks < nput0 + len) :
    mtdoutstream_puts dev g nput0 cache0 buf len =
      ⟨-ENOSPC, nput0, cache0, []⟩ := by
  simp [mtdoutstream_puts, h]

/-- Concrete instance of `puts_capacity_noSpace`: geometry 4/8/2
(capacity 16), position 10, write of 7 bytes. -/
theorem puts_capacity_noSpace_witness :
    mtdoutstream_puts ⟨false, fun _ _ => 0, fun _ _ _ => 1, fun _ _ _ => 0⟩
        ⟨4, 8, 2⟩ 10 (List.replicate 8 0) [1, 2, 3, 4, 5, 6, 7] 7 =
      ⟨-ENOSPC, 10, List.replicate 8 0, []⟩ :=
  puts_capacity_noSpace _ _ 10 _ _ 7 (by decide)

theorem copyInto_length (dst src : List Nat) (off : Nat)
    (h : off + src.length ≤ dst.length) :
    (copyInto dst off src).length = dst.length := by
  simp [copyInto]
  omega

/-- Main lemma on the buffered-mode loop: with positive erase size and
fuel exceeding `remain`, the loop terminates; the position never
decreases and advances by at most `remain`; any error it returns is
negative (the C only propagates `ret < 0`); an error-free device makes it
run to completion; and the cache keeps its one-erase-unit length. -/
theorem putsLoopB_spec (dev : MtdDev) (es nbpe : Nat) (hg : 0 < es) :
    ∀ fuel remain nput cache ptr ops, remain < fuel →
      ∃ out, putsLoopB dev es nbpe fuel nput cache ptr remain ops = some out ∧
        nput ≤ out.nput ∧ out.nput ≤ nput + remain ∧
        (∀ e, out.err = some e → e < 0) ∧
        (dev.NoErr → out.err = none) ∧
        (cache.length = es → out.cache.length = es) := by
  intro fuel
  induction fuel with
  | zero => intro remain _ _ _ _ h; omega
  | succ fuel ih =>
    intro remain nput cache ptr ops h
    simp only [putsLoopB]
    by_cases h0 : remain = 0
    · subst h0
      exact ⟨⟨none, nput, cache, ops⟩, by simp, by simp, by simp, by simp,
             by simp, fun hc => hc⟩
    rw [if_neg h0]
    have hlt : nput % es < es := Nat.mod_lt _ hg
    by_cases hoff : 0 < nput % es
    · rw [if_pos hoff]
      generalize hcp : (if es < nput % es + remain then es - nput % es else remain) = cp
      have hcp1 : 1 ≤ cp := by
        rw [← hcp]; split <;> omega
      have hcp2 : cp ≤ remain := by
        rw [← hcp]; split <;> omega
      have hcp3 : nput % es + cp ≤ es := by
        rw [← hcp]; split <;> omega
      have hclen : cache.length = es →
          (copyInto cache (nput % es) (ptr.take cp)).length = es := by
        intro hc
        rw [copyInto_length]
        · exact hc
        · have := List.length_take cp ptr
          omega
      by_cases hfill : nput % es + cp = es
      · rw [if_pos hfill]
        by_cases hr1 : dev.eraseRes (nput / es) 1 < 0
        · rw [if_pos hr1]
          refine ⟨_, rfl, ?_, ?_, ?_, ?_, ?_⟩
          · dsimp only; omega
          · dsimp only; omega
          · dsimp only
            intro e he
            simp only [Option.some_inj] at he
            omega
          · dsimp only
            intro hne
            exact absurd (hne.1 (nput / es) 1) (by omega)
          · dsimp only
            exact fun hc => hclen hc
        · rw [if_neg hr1]
          by_cases hr2 : dev.bwriteRes (nput / es * nbpe) nbpe
              (copyInto cache (nput % es) (ptr.take cp)) < 0
          · rw [if_pos hr2]
            refine ⟨_, rfl, ?_, ?_, ?_, ?_, ?_⟩
            · dsimp only; omega
            · dsimp only; omega
            · dsimp only
              intro e he
              simp only [Option.some_inj] at he
              omega
            · dsimp only
              intro hne
              exact absurd
                (hne.2.1 (nput / es * nbpe) nbpe (copyInto cache (nput % es) (ptr.take cp)))
                (by omega)
            · dsimp only
              exact fun hc => hclen hc
          · rw [if_neg hr2]
            obtain ⟨out, heq, hmono, hub, herr, hok, hcl⟩ :=
              ih (remain - cp) (nput + cp) (copyInto cache (nput % es) (ptr.take cp))
                (ptr.drop cp)
                (ops ++ [DevOp.erase (nput / es) 1] ++
                  [DevOp.bwrite (nput / es * nbpe) nbpe
                    (copyInto cache (nput % es) (ptr.take cp))])
                (by omega)
            refine ⟨out, heq, ?_, ?_, herr, hok, fun hc => hcl (hclen hc)⟩
            · omega
            · omega
      · rw [if_neg hfill]
        obtain ⟨out, heq, hmono, hub, herr, hok, hcl⟩ :=
          ih (remain - cp) (nput + cp) (copyInto cache (nput % es) (ptr.take cp))
            (ptr.drop cp) ops (by omega)
        refine ⟨out, heq, ?_, ?_, herr, hok, fun hc => hcl (hclen hc)⟩
        · omega
        · omega
    · rw [if_neg hoff]
      by_cases hrem : remain < es
      · rw [if_pos hrem]
        refine ⟨_, rfl, ?_, ?_, ?_, ?_, ?_⟩
        · dsimp only; omega
        · dsimp only; omega
        · dsimp only
          intro e he
          simp at he
        · dsimp only
          intro _
          rfl
        · dsimp only
          intro _
          rw [copyInto_length]
          · simp
          · have := List.length_take remain ptr
            simp
            omega
      · rw [if_neg hrem]
        have hes : es ≤ remain := le_of_not_lt hrem
        have hnb : 1 ≤ remain / es := (Nat.one_le_div_iff hg).2 hes
        have hcpl : remain / es * es ≤ remain := Nat.div_mul_le_self remain es
        have hcpg : es ≤ remain / es * es := le_mul_of_one_le_left' hnb
        by_cases hr1 : dev.eraseRes (nput / es) (remain / es) < 0
        · rw [if_pos hr1]
          refine ⟨_, rfl, ?_, ?_, ?_, ?_, ?_⟩
          · dsimp only; omega
          · dsimp only; omega
          · dsimp only
            intro e he
            simp only [Option.some_inj] at he
            omega
          · dsimp only
            intro hne
            exact absurd (hne.1 (nput / es) (remain / es)) (by omega)
          · dsimp only
            exact fun hc => hc
        · rw [if_neg hr1]
          by_cases hr2 : dev.bwriteRes (nput / es * nbpe) (remain / es * nbpe)
              (ptr.take (remain / es * es)) < 0
          · rw [if_pos hr2]
            refine ⟨_, rfl, ?_, ?_, ?_, ?_, ?_⟩
            · dsimp only; omega
            · dsimp only; omega
            · dsimp only
              intro e he
              simp only [Option.some_inj] at he
              omega
            · dsimp only
              intro hne
              exact absurd
                (hne.2.1 (nput / es * nbpe) (remain / es * nbpe) (ptr.take (remain / es * es)))
                (by omega)
            · dsimp only
              exact fun hc => hc
          · rw [if_neg hr2]
            obtain ⟨out, heq, hmono, hub, herr, hok, hcl⟩ :=
              ih (remain - remain / es * es) (nput + remain / es * es) cache
                (ptr.drop (remain / es * es))
                (ops ++ [DevOp.erase (nput / es) (remain / es)] ++
                  [DevOp.bwrite (nput / es * nbpe) (remain / es * nbpe)
                    (ptr.take (remain / es * es))])
                (by omega)
            refine ⟨out, heq, ?_, ?_, herr, hok, hcl⟩
            · omega
            · omega

/-- Position bounds for a single `mtdoutstream_puts` call: the position
never decreases and advances by at most `len`. -/
theorem puts_nput_bounds (dev : MtdDev) (g : MtdGeo) (hg : 0 < g.erasesize)
    (nput0 : Nat) (cache0 buf : List Nat) (len : Nat) :
    nput0 ≤ (mtdoutstream_puts dev g nput0 cache0 buf len).nput ∧
      (mtdoutstream_puts dev g nput0 cache0 buf len).nput ≤ nput0 + len := by
  unfold mtdoutstream_puts
  by_cases hcap : g.erasesize * g.neraseblocks < nput0 + len
  · rw [if_pos hcap]
    dsimp only
    omega
  · rw [if_neg hcap]
    by_cases hw : dev.hasWrite = true
    · rw [if_pos hw]
      dsimp only
      split
      · split <;> dsimp only <;> omega
      · split
        · dsimp only
          omega
        · split <;> dsimp only <;> omega
    · rw [if_neg hw]
      obtain ⟨out, heq, hmono, hub, _, _, _⟩ :=
        putsLoopB_spec dev g.erasesize (g.erasesize / g.blocksize) hg
          (len + 1) len nput0 cache0 buf [] (by omega)
      rw [heq]
      dsimp only
      omega

/-- Claim C10: in buffered mode every cache write stays inside the
one-erase-unit cache: a `putBytes` call preserves the cache length
`eraseUnitSize` (an out-of-bounds `memcpy` would lengthen the modelled
cache, so length preservation is exactly in-bounds writing). -/
theorem puts_cache_within_bounds (dev : MtdDev) (g : MtdGeo)
    (hg : 0 < g.erasesize) (hw : dev.hasWrite = false) (nput0 : Nat)
    (cache0 buf : List Nat) (len : Nat) (hc : cache0.length = g.erasesize) :
    (mtdoutstream_puts dev g nput0 cache0 buf len).cache.length =
      g.erasesize := by
  unfold mtdoutstream_puts
  by_cases hcap : g.erasesize * g.neraseblocks < nput0 + len
  · rw [if_pos hcap]
    exact hc
  · rw [if_neg hcap]
    simp only [hw, Bool.false_eq_true, if_false]
    obtain ⟨out, heq, _, _, _, _, hcl⟩ :=
      putsLoopB_spec dev g.erasesize (g.erasesize / g.blocksize) hg
        (len + 1) len nput0 cache0 buf [] (by omega)
    rw [heq]
    exact hcl hc

/-- Concrete instance of `puts_cache_within_bounds`: geometry 4/8/2, a
5-byte write at position 0 through an 8-byte cache. -/
theorem puts_cache_within_bounds_witness :
    (mtdoutstream_puts ⟨false, fun _ _ => 0, fun _ _ _ => 1, fun _ _ _ => 0⟩
        ⟨4, 8, 2⟩ 0 (List.replicate 8 7) [1, 2, 3, 4, 5] 5).cache.length = 8 :=
  puts_cache_within_bounds _ ⟨4, 8, 2⟩ (by decide) rfl 0 _ _ 5 (by decide)

/-- Claim C8: once past the capacity check, an error-free call returns
exactly `len` in either device mode; and unconditionally the return value
is either `len` or a negative error code, never a partial count. -/
theorem puts_all_or_nothing_ret (dev : MtdDev) (g : MtdGeo)
    (hg : 0 < g.erasesize) (nput0 : Nat) (cache0 buf : List Nat) (len : Nat) :
    (nput0 + len ≤ g.erasesize * g.neraseblocks → dev.NoErr →
      (mtdoutstream_puts dev g nput0 cache0 buf len).ret = (len : Int)) ∧
    ((mtdoutstream_puts dev g nput0 cache0 buf len).ret = (len : Int) ∨
      (mtdoutstream_puts dev g nput0 cache0 buf len).ret < 0) := by
  unfold mtdoutstream_puts
  by_cases hcap : g.erasesize * g.neraseblocks < nput0 + len
  · rw [if_pos hcap]
    constructor
    · intro hle
      omega
    · right
      simp [ENOSPC]
  · rw [if_neg hcap]
    by_cases hw : dev.hasWrite = true
    · rw [if_pos hw]
      dsimp only
      constructor
      · intro _ hne
        split
        · split
          · exact absurd (hne.2.2 nput0 len (buf.take len)) (by omega)
          · rfl
        · split
          · exact absurd
              (hne.1 ((nput0 + g.erasesize - 1) / g.erasesize)
                ((nput0 + len + g.erasesize - 1) / g.erasesize -
                  (nput0 + g.erasesize - 1) / g.erasesize))
              (by omega)
          · split
            · exact absurd (hne.2.2 nput0 len (buf.take len)) (by omega)
            · rfl
      · split
        · split
          · right
            assumption
          · left
            rfl
        · split
          · right
            assumption
          · split
            · right
              assumption
            · left
              rfl
    · rw [if_neg hw]
      obtain ⟨out, heq, _, _, herr, hok, _⟩ :=
        putsLoopB_spec dev g.erasesize (g.erasesize / g.blocksize) hg
          (len + 1) len nput0 cache0 buf [] (by omega)
      rw [heq]
      dsimp only
      constructor
      · intro _ hne
        rw [hok hne]
      · cases he : out.err with
        | none =>
          left
          rfl
        | some e =>
          right
          exact herr e he

/-- Concrete instance of `puts_all_or_nothing_ret`: error-free device,
geometry 4/8/2, 3-byte write at position 0. -/
theorem puts_all_or_nothing_ret_witness :
    ((0 + 3 ≤ 8 * 2 →
      MtdDev.NoErr ⟨false, fun _ _ => 0, fun _ _ _ => 1, fun _ _ _ => 0⟩ →
      (mtdoutstream_puts ⟨false, fun _ _ => 0, fun _ _ _ => 1, fun _ _ _ => 0⟩
        ⟨4, 8, 2⟩ 0 (List.replicate 8 0) [1, 2, 3] 3).ret = (3 : Int)) ∧
    ((mtdoutstream_puts ⟨false, fun _ _ => 0, fun _ _ _ => 1, fun _ _ _ => 0⟩
        ⟨4, 8, 2⟩ 0 (List.replicate 8 0) [1, 2, 3] 3).ret = (3 : Int) ∨
      (mtdoutstream_puts ⟨false, fun _ _ => 0, fun _ _ _ => 1, fun _ _ _ => 0⟩
        ⟨4, 8, 2⟩ 0 (List.replicate 8 0) [1, 2, 3] 3).ret < 0)) :=
  puts_all_or_nothing_ret _ ⟨4, 8, 2⟩ (by decide) 0 _ _ 3

/-- One call never decreases the position and preserves the capacity
bound `position ≤ eraseUnitSize * eraseUnitCount`. -/
theorem stepCall_nput (dev : MtdDev) (g : MtdGeo) (hg : 0 < g.erasesize)
    (s : StreamSt) (c : SCall) :
    s.nput ≤ (stepCall dev g s c).nput ∧
      (s.nput ≤ g.erasesize * g.neraseblocks →
        (stepCall dev g s c).nput ≤ g.erasesize * g.neraseblocks) := by
  have key : ∀ buf len,
      s.nput ≤ (mtdoutstream_puts dev g s.nput s.cache buf len).nput ∧
        (s.nput ≤ g.erasesize * g.neraseblocks →
          (mtdoutstream_puts dev g s.nput s.cache buf len).nput ≤
            g.erasesize * g.neraseblocks) := by
    intro buf len
    obtain ⟨h1, h2⟩ := puts_nput_bounds dev g hg s.nput s.cache buf len
    refine ⟨h1, fun hle => ?_⟩
    by_cases hcap : g.erasesize * g.neraseblocks < s.nput + len
    · have hunch : (mtdoutstream_puts dev g s.nput s.cache buf len).nput = s.nput := by
        unfold mtdoutstream_puts
        rw [if_pos hcap]
      omega
    · omega
  cases c with
  | puts buf len => exact key buf len
  | putc ch => exact key [ch % 256] 1
  | flush => exact ⟨le_refl _, fun h => h⟩

/-- Over any sequence of calls the position is monotone and stays within
capacity when it starts within capacity. -/
theorem runCalls_nput_bounds (dev : MtdDev) (g : MtdGeo)
    (hg : 0 < g.erasesize) (calls : List SCall) (s : StreamSt) :
    s.nput ≤ (runCalls dev g s calls).nput ∧
      (s.nput ≤ g.erasesize * g.neraseblocks →
        (runCalls dev g s calls).nput ≤ g.erasesize * g.neraseblocks) := by
  induction calls generalizing s with
  | nil => exact ⟨le_refl _, fun h => h⟩
  | cons c cs ih =>
    obtain ⟨h1, h2⟩ := stepCall_nput dev g hg s c
    obtain ⟨h3, h4⟩ := ih (stepCall dev g s c)
    exact ⟨le_trans h1 h3, fun h => h4 (h2 h)⟩

/-- Running a concatenation of call lists runs them in sequence. -/
theorem runCalls_append (dev : MtdDev) (g : MtdGeo) (a b : List SCall)
    (s : StreamSt) :
    runCalls dev g s (a ++ b) = runCalls dev g (runCalls dev g s a) b := by
  induction a generalizing s with
  | nil => rfl
  | cons c cs ih =>
    simp only [List.cons_append, runCalls]
    exact ih (stepCall dev g s c)

/-- Claim C9: from the open state (`position = 0`), after any sequence of
`putBytes`/`putByte`/`flush` calls (succeeding or failing), the position
satisfies `position ≤ eraseUnitSize * eraseUnitCount`, and it is
monotonically non-decreasing: any continuation of the call sequence can
only increase it. -/
theorem reachable_capacity_invariant (dev : MtdDev) (g : MtdGeo)
    (hg : 0 < g.erasesize) (s : StreamSt) (h0 : s.nput = 0)
    (calls more : List SCall) :
    (runCalls dev g s calls).nput ≤ g.erasesize * g.neraseblocks ∧
      (runCalls dev g s calls).nput ≤
        (runCalls dev g s (calls ++ more)).nput := by
  constructor
  · exact (runCalls_nput_bounds dev g hg calls s).2 (by omega)
  · rw [runCalls_append]
    exact (runCalls_nput_bounds dev g hg more (runCalls dev g s calls)).1

/-- Concrete instance of `reachable_capacity_invariant`: geometry 4/8/2,
three calls (a 5-byte write, a `putc`, a flush) followed by one more
write. -/
theorem reachable_capacity_invariant_witness :
    (runCalls ⟨false, fun _ _ => 0, fun _ _ _ => 1, fun _ _ _ => 0⟩ ⟨4, 8, 2⟩
        ⟨0, List.replicate 8 0⟩
        [SCall.puts [1, 2, 3, 4, 5] 5, SCall.putc 9, SCall.flush]).nput ≤ 8 * 2 ∧
      (runCalls ⟨false, fun _ _ => 0, fun _ _ _ => 1, fun _ _ _ => 0⟩ ⟨4, 8, 2⟩
          ⟨0, List.replicate 8 0⟩
          [SCall.puts [1, 2, 3, 4, 5] 5, SCall.putc 9, SCall.flush]).nput ≤
        (runCalls ⟨false, fun _ _ => 0, fun _ _ _ => 1, fun _ _ _ => 0⟩ ⟨4, 8, 2⟩
            ⟨0, List.replicate 8 0⟩
            ([SCall.puts [1, 2, 3, 4, 5] 5, SCall.putc 9, SCall.flush] ++
              [SCall.puts [6, 7] 2])).nput :=
  reachable_capacity_invariant _ ⟨4, 8, 2⟩ (by decide) _ rfl _ _

/-- The buffered loop with nothing left to write stops immediately,
whatever positive fuel it is given. -/
theorem putsLoopB_done (dev : MtdDev) (es nbpe fuel : Nat) (hf : 0 < fuel)
    (nput : Nat) (cache ptr : List Nat) (ops : List DevOp) :
    putsLoopB dev es nbpe fuel nput cache ptr 0 ops =
      some ⟨none, nput, cache, ops⟩ := by
  cases fuel with
  | zero => omega
  | succ n =>
    rw [putsLoopB]
    rw [if_pos rfl]

/-- Claim C2: in buffered mode, a `putBytes` of exactly `eraseUnitSize`
bytes starting at a unit boundary issues exactly one erase of that unit
followed by exactly one block-program of that unit whose programmed data
is the very buffer of the caller (the cache is neither consulted nor
modified), and the call returns `eraseUnitSize`. -/
theorem exact_unit_commit (dev : MtdDev) (g : MtdGeo) (hg : 0 < g.erasesize)
    (hw : dev.hasWrite = false) (nput0 : Nat) (cache0 buf : List Nat)
    (hal : nput0 % g.erasesize = 0) (hbl : buf.length = g.erasesize)
    (hcap : nput0 + g.erasesize ≤ g.erasesize * g.neraseblocks)
    (he : 0 ≤ dev.eraseRes (nput0 / g.erasesize) 1)
    (hb : 0 ≤ dev.bwriteRes (nput0 / g.erasesize * (g.erasesize / g.blocksize))
            (g.erasesize / g.blocksize) buf) :
    mtdoutstream_puts dev g nput0 cache0 buf g.erasesize =
      ⟨(g.erasesize : Int), nput0 + g.erasesize, cache0,
        [DevOp.erase (nput0 / g.erasesize) 1,
         DevOp.bwrite (nput0 / g.erasesize * (g.erasesize / g.blocksize))
           (g.erasesize / g.blocksize) buf]⟩ := by
  have htake : List.take g.erasesize buf = buf := by
    rw [← hbl]
    exact List.take_length buf
  have hloop : putsLoopB dev g.erasesize (g.erasesize / g.blocksize)
      (g.erasesize + 1) nput0 cache0 buf g.erasesize [] =
      some ⟨none, nput0 + g.erasesize, cache0,
        [DevOp.erase (nput0 / g.erasesize) 1,
         DevOp.bwrite (nput0 / g.erasesize * (g.erasesize / g.blocksize))
           (g.erasesize / g.blocksize) buf]⟩ := by
    rw [putsLoopB]
    dsimp only
    rw [if_neg (by omega)]
    rw [hal]
    rw [if_neg (by omega)]
    rw [if_neg (lt_irrefl g.erasesize)]
    rw [Nat.div_self hg]
    simp only [one_mul]
    rw [htake]
    rw [if_neg (by omega)]
    rw [if_neg (by omega)]
    rw [Nat.sub_self]
    rw [putsLoopB_done dev _ _ _ hg]
    simp
  unfold mtdoutstream_puts
  rw [if_neg (by omega)]
  rw [if_neg (by simp [hw])]
  rw [hloop]

/-- Concrete instance of `exact_unit_commit`: geometry 4/8/2, an 8-byte
write at position 8. -/
theorem exact_unit_commit_witness :
    mtdoutstream_puts ⟨false, fun _ _ => 0, fun _ _ _ => 1, fun _ _ _ => 0⟩
        ⟨4, 8, 2⟩ 8 (List.replicate 8 9) [1, 2, 3, 4, 5, 6, 7, 8] 8 =
      ⟨((8 : Nat) : Int), 8 + 8, List.replicate 8 9,
        [DevOp.erase (8 / 8) 1,
         DevOp.bwrite (8 / 8 * (8 / 4)) (8 / 4) [1, 2, 3, 4, 5, 6, 7, 8]]⟩ :=
  exact_unit_commit _ ⟨4, 8, 2⟩ (by decide) rfl 8 _ _ (by decide) (by decide)
    (by decide) (by decide) (by decide)

/-- Claim C3: in buffered mode, writing `0 < k < eraseUnitSize` bytes at a
unit boundary performs no device operation at all: it fills the cache with
the input followed by zero padding and returns `k`; a subsequent `flush`
erases that unit and block-programs it with the input bytes followed by
`eraseUnitSize - k` zero bytes. -/
theorem subunit_zero_pad_flush (dev : MtdDev) (g : MtdGeo)
    (hg : 0 < g.erasesize) (hw : dev.hasWrite = false) (nput0 k : Nat)
    (cache0 buf : List Nat) (hk0 : 0 < k) (hk : k < g.erasesize)
    (hbl : buf.length = k) (hal : nput0 % g.erasesize = 0)
    (hcap : nput0 + k ≤ g.erasesize * g.neraseblocks)
    (he : 0 ≤ dev.eraseRes (nput0 / g.erasesize) 1) :
    mtdoutstream_puts dev g nput0 cache0 buf k =
      ⟨(k : Int), nput0 + k, buf ++ List.replicate (g.erasesize - k) 0, []⟩ ∧
    mtdoutstream_flush dev g (nput0 + k)
        (buf ++ List.replicate (g.erasesize - k) 0) =
      (dev.bwriteRes (nput0 / g.erasesize * (g.erasesize / g.blocksize))
         (g.erasesize / g.blocksize) (buf ++ List.replicate (g.erasesize - k) 0),
       [DevOp.erase (nput0 / g.erasesize) 1,
        DevOp.bwrite (nput0 / g.erasesize * (g.erasesize / g.blocksize))
          (g.erasesize / g.blocksize)
          (buf ++ List.replicate (g.erasesize - k) 0)]) := by
  have htake : List.take k buf = buf := by
    rw [← hbl]
    exact List.take_length buf
  have hcache : copyInto (List.replicate g.erasesize 0) 0 (List.take k buf) =
      buf ++ List.replicate (g.erasesize - k) 0 := by
    rw [htake]
    simp [copyInto, List.drop_replicate, hbl]
  have hmod : (nput0 + k) % g.erasesize = k := by
    rw [Nat.add_mod, hal]
    simp [Nat.mod_eq_of_lt hk]
  have hdiv : (nput0 + k) / g.erasesize = nput0 / g.erasesize := by
    obtain ⟨q, hq⟩ := Nat.dvd_of_mod_eq_zero hal
    rw [hq, Nat.mul_add_div hg, Nat.div_eq_of_lt hk, Nat.mul_div_cancel_left q hg]
    omega
  constructor
  · have hloop : putsLoopB dev g.erasesize (g.erasesize / g.blocksize)
        (k + 1) nput0 cache0 buf k [] =
        some ⟨none, nput0 + k, buf ++ List.replicate (g.erasesize - k) 0, []⟩ := by
      rw [putsLoopB]
      dsimp only
      rw [if_neg (by omega)]
      rw [hal]
      rw [if_neg (by omega)]
      rw [if_pos hk]
      rw [hcache]
    unfold mtdoutstream_puts
    rw [if_neg (by omega)]
    rw [if_neg (by simp [hw])]
    rw [hloop]
  · unfold mtdoutstream_flush
    dsimp only
    rw [hmod, hdiv]
    rw [if_pos hk0]
    rw [if_neg (by simp [hw])]
    rw [if_neg (by omega)]

/-- Concrete instance of `subunit_zero_pad_flush`: geometry 4/8/2, 3 bytes
written at position 0, then flushed. -/
theorem subunit_zero_pad_flush_witness :
    mtdoutstream_puts ⟨false, fun _ _ => 0, fun _ _ _ => 1, fun _ _ _ => 0⟩
        ⟨4, 8, 2⟩ 0 (List.replicate 8 9) [1, 2, 3] 3 =
      ⟨((3 : Nat) : Int), 0 + 3, [1, 2, 3] ++ List.replicate (8 - 3) 0, []⟩ ∧
    mtdoutstream_flush ⟨false, fun _ _ => 0, fun _ _ _ => 1, fun _ _ _ => 0⟩
        ⟨4, 8, 2⟩ (0 + 3) ([1, 2, 3] ++ List.replicate (8 - 3) 0) =
      ((1 : Int),
       [DevOp.erase (0 / 8) 1,
        DevOp.bwrite (0 / 8 * (8 / 4)) (8 / 4)
          ([1, 2, 3] ++ List.replicate (8 - 3) 0)]) :=
  subunit_zero_pad_flush _ ⟨4, 8, 2⟩ (by decide) rfl 0 3 _ _ (by decide)
    (by decide) (by decide) (by decide) (by decide) (by decide)

/-- Claim C4: in direct byte-program mode, `putBytes` erases exactly the
newly entered erase units — the range from `⌈position / eraseUnitSize⌉` up
to `⌈(position + len) / eraseUnitSize⌉`, and nothing when that range is
empty — then byte-programs exactly `[position, position + len)` from the
buffer of the caller, leaves the cache untouched, and advances the position by
`len`. -/
theorem direct_byte_program (dev : MtdDev) (g : MtdGeo) (hg : 0 < g.erasesize)
    (hw : dev.hasWrite = true) (nput0 len : Nat) (cache0 buf : List Nat)
    (hcap : nput0 + len ≤ g.erasesize * g.neraseblocks)
    (he : ∀ a b, 0 ≤ dev.eraseRes a b)
    (hwr : ∀ a b d, 0 ≤ dev.writeRes a b d) :
    mtdoutstream_puts dev g nput0 cache0 buf len =
      ⟨(len : Int), nput0 + len, cache0,
        (if nput0 ⌈/⌉ g.erasesize = (nput0 + len) ⌈/⌉ g.erasesize then []
         else [DevOp.erase (nput0 ⌈/⌉ g.erasesize)
                 ((nput0 + len) ⌈/⌉ g.erasesize - nput0 ⌈/⌉ g.erasesize)]) ++
          [DevOp.write nput0 len (buf.take len)]⟩ := by
  have hsb : nput0 ⌈/⌉ g.erasesize = (nput0 + g.erasesize - 1) / g.erasesize :=
    Nat.ceilDiv_eq_add_pred_div _ _
  have heb : (nput0 + len) ⌈/⌉ g.erasesize =
      (nput0 + len + g.erasesize - 1) / g.erasesize :=
    Nat.ceilDiv_eq_add_pred_div _ _
  unfold mtdoutstream_puts
  rw [if_neg (by omega), if_pos hw]
  dsimp only
  rw [← hsb, ← heb]
  by_cases hse : nput0 ⌈/⌉ g.erasesize = (nput0 + len) ⌈/⌉ g.erasesize
  · rw [if_pos hse, if_pos hse]
    rw [if_neg (by have := hwr nput0 len (buf.take len); omega)]
    simp
  · rw [if_neg hse, if_neg hse]
    rw [if_neg (by
      have := he (nput0 ⌈/⌉ g.erasesize)
        ((nput0 + len) ⌈/⌉ g.erasesize - nput0 ⌈/⌉ g.erasesize)
      omega)]
    rw [if_neg (by have := hwr nput0 len (buf.take len); omega)]
    simp

/-- Concrete instance of `direct_byte_program`: geometry 4/8/2, position 2,
9-byte write that spans into erase unit 1 (so unit 1 is erased first). -/
theorem direct_byte_program_witness :
    mtdoutstream_puts ⟨true, fun _ _ => 0, fun _ _ _ => 1, fun _ _ _ => 0⟩
        ⟨4, 8, 2⟩ 2 [] [1, 2, 3, 4, 5, 6, 7, 8, 9] 9 =
      ⟨((9 : Nat) : Int), 2 + 9, [],
        (if 2 ⌈/⌉ 8 = (2 + 9) ⌈/⌉ 8 then []
         else [DevOp.erase (2 ⌈/⌉ 8) ((2 + 9) ⌈/⌉ 8 - 2 ⌈/⌉ 8)]) ++
          [DevOp.write 2 9 (List.take 9 [1, 2, 3, 4, 5, 6, 7, 8, 9])]⟩ :=
  direct_byte_program _ ⟨4, 8, 2⟩ (by decide) rfl 2 9 _ _ (by decide)
    (fun _ _ => le_refl 0) (fun _ _ _ => le_refl 0)

/-- Claim C5: in buffered mode, when a `putBytes` call exactly fills a
partially written unit and the commit (erase, or erase then
block-program) fails, the call returns that device error, but the
position has already advanced by the `eraseUnitSize - offset` bytes
merged into the cache, and the cache keeps the merged bytes — no
rollback. -/
theorem fill_commit_device_error (dev : MtdDev) (g : MtdGeo)
    (hg : 0 < g.erasesize) (hw : dev.hasWrite = false) (nput0 len : Nat)
    (cache0 buf : List Nat) (hoff : 0 < nput0 % g.erasesize)
    (hfill : g.erasesize ≤ nput0 % g.erasesize + len)
    (hcap : nput0 + len ≤ g.erasesize * g.neraseblocks)
    (hfail : dev.eraseRes (nput0 / g.erasesize) 1 < 0 ∨
      (0 ≤ dev.eraseRes (nput0 / g.erasesize) 1 ∧
        dev.bwriteRes (nput0 / g.erasesize * (g.erasesize / g.blocksize))
          (g.erasesize / g.blocksize)
          (copyInto cache0 (nput0 % g.erasesize)
            (buf.take (g.erasesize - nput0 % g.erasesize))) < 0)) :
    (mtdoutstream_puts dev g nput0 cache0 buf len).ret < 0 ∧
    (mtdoutstream_puts dev g nput0 cache0 buf len).nput =
      nput0 + (g.erasesize - nput0 % g.erasesize) ∧
    (mtdoutstream_puts dev g nput0 cache0 buf len).cache =
      copyInto cache0 (nput0 % g.erasesize)
        (buf.take (g.erasesize - nput0 % g.erasesize)) := by
  have hlt : nput0 % g.erasesize < g.erasesize := Nat.mod_lt _ hg
  have hcp : (if g.erasesize < nput0 % g.erasesize + len
      then g.erasesize - nput0 % g.erasesize else len) =
      g.erasesize - nput0 % g.erasesize := by
    split <;> omega
  have hloop : ∃ err, (err < 0) ∧
      putsLoopB dev g.erasesize (g.erasesize / g.blocksize) (len + 1)
        nput0 cache0 buf len [] =
      some ⟨some err, nput0 + (g.erasesize - nput0 % g.erasesize),
        copyInto cache0 (nput0 % g.erasesize)
          (buf.take (g.erasesize - nput0 % g.erasesize)),
        (if dev.eraseRes (nput0 / g.erasesize) 1 < 0 then
          [DevOp.erase (nput0 / g.erasesize) 1]
         else
          [DevOp.erase (nput0 / g.erasesize) 1,
           DevOp.bwrite (nput0 / g.erasesize * (g.erasesize / g.blocksize))
             (g.erasesize / g.blocksize)
             (copyInto cache0 (nput0 % g.erasesize)
               (buf.take (g.erasesize - nput0 % g.erasesize)))])⟩ := by
    rw [putsLoopB]
    dsimp only
    rw [if_neg (by omega)]
    rw [if_pos hoff]
    rw [hcp]
    rw [if_pos (by omega)]
    rcases hfail with hfe | ⟨hok, hfb⟩
    · rw [if_pos hfe, if_pos hfe]
      exact ⟨dev.eraseRes (nput0 / g.erasesize) 1, hfe, by simp⟩
    · have h1 : ¬ dev.eraseRes (nput0 / g.erasesize) 1 < 0 := by omega
      rw [if_neg h1, if_neg h1, if_pos hfb]
      refine ⟨_, hfb, by simp⟩
  obtain ⟨err, herrneg, hloopeq⟩ := hloop
  unfold mtdoutstream_puts
  rw [if_neg (by omega)]
  rw [if_neg (by simp [hw])]
  rw [hloopeq]
  exact ⟨herrneg, rfl, rfl⟩

/-- Concrete instance of `fill_commit_device_error`: geometry 4/8/2,
position 3, 5-byte write exactly filling unit 0, erase fails with -5. -/
theorem fill_commit_device_error_witness :
    (mtdoutstream_puts ⟨false, fun _ _ => -5, fun _ _ _ => 1, fun _ _ _ => 0⟩
        ⟨4, 8, 2⟩ 3 (List.replicate 8 0) [1, 2, 3, 4, 5] 5).ret < 0 ∧
    (mtdoutstream_puts ⟨false, fun _ _ => -5, fun _ _ _ => 1, fun _ _ _ => 0⟩
        ⟨4, 8, 2⟩ 3 (List.replicate 8 0) [1, 2, 3, 4, 5] 5).nput =
      3 + (8 - 3 % 8) ∧
    (mtdoutstream_puts ⟨false, fun _ _ => -5, fun _ _ _ => 1, fun _ _ _ => 0⟩
        ⟨4, 8, 2⟩ 3 (List.replicate 8 0) [1, 2, 3, 4, 5] 5).cache =
      copyInto (List.replicate 8 0) (3 % 8) (List.take (8 - 3 % 8) [1, 2, 3, 4, 5]) :=
  fill_commit_device_error _ ⟨4, 8, 2⟩ (by decide) rfl 3 5 _ _ (by decide)
    (by decide) (by decide) (Or.inl (by decide))

/-- Replaying one flush-style commit leaves the device content unchanged:
a flush trace is empty, a lone erase, or an erase followed by a
block-program of (part of) the erased unit, and in each case the second
round writes the same bytes the first round wrote. -/
theorem applyOps_commit_twice (g : MtdGeo) (c : Nat → Nat) (ops : List DevOp)
    (h : ops = [] ∨ (∃ sb n, ops = [DevOp.erase sb n]) ∨
      (∃ sb n bb m d, ops = [DevOp.erase sb n, DevOp.bwrite bb m d])) :
    applyOps g c (ops ++ ops) = applyOps g c ops := by
  rcases h with rfl | ⟨sb, n, rfl⟩ | ⟨sb, n, bb, m, d, rfl⟩
  · rfl
  · funext a
    by_cases hp : sb * g.erasesize ≤ a ∧ a < (sb + n) * g.erasesize <;>
      simp [applyOps, applyOp, hp]
  · funext a
    by_cases hq : bb * g.blocksize ≤ a ∧ a < (bb + m) * g.blocksize <;>
      by_cases hp : sb * g.erasesize ≤ a ∧ a < (sb + n) * g.erasesize <;>
        simp [applyOps, applyOp, hq, hp]

/-- Claim C6: flush is idempotent on device content: with no intervening
write (flush reads `nput` and `cache` and modifies neither, so the second
call sees the same state), flushing twice issues the trace twice, and the
resulting device content equals that of a single flush; when the position
is at a unit boundary, or the device does direct byte programming, flush
issues no device operation and returns success.  The device oracles are
deterministic, so the repeated call also returns the identical value. -/
theorem flush_idempotent_content (dev : MtdDev) (g : MtdGeo) (nput : Nat)
    (cache : List Nat) (c : Nat → Nat) :
    applyOps g c ((mtdoutstream_flush dev g nput cache).2 ++
        (mtdoutstream_flush dev g nput cache).2) =
      applyOps g c (mtdoutstream_flush dev g nput cache).2 ∧
    (nput % g.erasesize = 0 → mtdoutstream_flush dev g nput cache = (0, [])) ∧
    (dev.hasWrite = true → mtdoutstream_flush dev g nput cache = (0, [])) := by
  refine ⟨?_, ?_, ?_⟩
  · apply applyOps_commit_twice
    unfold mtdoutstream_flush
    dsimp only
    by_cases h0 : 0 < nput % g.erasesize
    · rw [if_pos h0]
      by_cases hw : dev.hasWrite = true
      · rw [if_pos hw]
        left
        rfl
      · rw [if_neg hw]
        by_cases hr : dev.eraseRes (nput / g.erasesize) 1 < 0
        · rw [if_pos hr]
          right
          left
          exact ⟨_, _, rfl⟩
        · rw [if_neg hr]
          right
          right
          exact ⟨_, _, _, _, _, rfl⟩
    · rw [if_neg h0]
      left
      rfl
  · intro h0
    have hn : ¬ 0 < nput % g.erasesize := by omega
    unfold mtdoutstream_flush
    dsimp only
    rw [if_neg hn]
  · intro hw
    unfold mtdoutstream_flush
    dsimp only
    by_cases h0 : 0 < nput % g.erasesize
    · rw [if_pos h0, if_pos hw]
    · rw [if_neg h0]

/-- Concrete instance of `flush_idempotent_content`: geometry 4/8/2,
position 3, all-ones cache, zero initial content. -/
theorem flush_idempotent_content_witness :
    applyOps ⟨4, 8, 2⟩ (fun _ => 0)
        ((mtdoutstream_flush ⟨false, fun _ _ => 0, fun _ _ _ => 1, fun _ _ _ => 0⟩
            ⟨4, 8, 2⟩ 3 (List.replicate 8 1)).2 ++
          (mtdoutstream_flush ⟨false, fun _ _ => 0, fun _ _ _ => 1, fun _ _ _ => 0⟩
            ⟨4, 8, 2⟩ 3 (List.replicate 8 1)).2) =
      applyOps ⟨4, 8, 2⟩ (fun _ => 0)
        (mtdoutstream_flush ⟨false, fun _ _ => 0, fun _ _ _ => 1, fun _ _ _ => 0⟩
          ⟨4, 8, 2⟩ 3 (List.replicate 8 1)).2 ∧
    (3 % 8 = 0 → mtdoutstream_flush ⟨false, fun _ _ => 0, fun _ _ _ => 1, fun _ _ _ => 0⟩
        ⟨4, 8, 2⟩ 3 (List.replicate 8 1) = (0, [])) ∧
    ((⟨false, fun _ _ => 0, fun _ _ _ => 1, fun _ _ _ => 0⟩ : MtdDev).hasWrite = true →
      mtdoutstream_flush ⟨false, fun _ _ => 0, fun _ _ _ => 1, fun _ _ _ => 0⟩
        ⟨4, 8, 2⟩ 3 (List.replicate 8 1) = (0, [])) :=
  flush_idempotent_content _ ⟨4, 8, 2⟩ 3 _ _

/-- Claim C7: `lib_mtdoutstream_close` issues no device erase or program
operation — a pending partial unit is never committed, and the device
content is exactly what it was before the call; it only nulls out the
inode handle and the cache, and it is a no-op on a `NULL` stream or on
already-`NULL` fields. -/
theorem close_no_device_ops (s : Option CloseFields) (st : CloseFields)
    (g : MtdGeo) (c : Nat → Nat) :
    (lib_mtdoutstream_close s).2 = [] ∧
    applyOps g c (lib_mtdoutstream_close s).2 = c ∧
    (lib_mtdoutstream_close (some st)).1 = some ⟨none, none⟩ ∧
    lib_mtdoutstream_close none = (none, []) := by
  refine ⟨?_, ?_, rfl, rfl⟩ <;> cases s <;> rfl
